import Mathlib

/-!
Verification of the imglab image-processing library.

The NumPy arrays of the source are embedded as lists of rows; 8-bit images
carry natural-number samples, float arrays carry rational samples (float
arithmetic is modelled exactly over `ℚ`).  Each definition below is a direct
translation of the Python function of the same name.
-/

namespace ImgLab

/-- Matrix of float samples: a 2-D NumPy array as a list of rows. -/
abbrev Mat := List (List ℚ)

/-- Matrix of uint8 samples: an 8-bit image as a list of rows. -/
abbrev MatN := List (List ℕ)

/-- Entry read `m[i, j]` of a float matrix; out-of-range indices give 0. -/
def at2 (m : Mat) (i j : ℕ) : ℚ := (m.getD i []).getD j 0

/-- Entry read `m[i, j]` of a uint8 matrix; out-of-range indices give 0. -/
def atN (m : MatN) (i j : ℕ) : ℕ := (m.getD i []).getD j 0

/-- Height of an array, as NumPy's `shape` reads it. -/
def shapeH (m : Mat) : ℕ := m.length

/-- Width of an array, as NumPy's `shape` reads it (length of the first row). -/
def shapeW (m : Mat) : ℕ := (m.headD []).length

/-- Embedding of `np.pad(image, ((ph, ph), (pw, pw)), mode="constant",
constant_values=0)`: `ph` zero rows above and below, `pw` zero samples at both
ends of every row. -/
def padConst (image : Mat) (ph pw : ℕ) : Mat :=
  let zrow := List.replicate (shapeW image + 2 * pw) (0 : ℚ)
  List.replicate ph zrow
    ++ image.map (fun r => List.replicate pw (0 : ℚ) ++ r ++ List.replicate pw (0 : ℚ))
    ++ List.replicate ph zrow

/-- Embedding of the NumPy slice `m[i:i+h, j:j+w]`. -/
def slice2d (m : Mat) (i j h w : ℕ) : Mat :=
  ((m.drop i).take h).map (fun r => (r.drop j).take w)

/-- Elementwise product `window * kernel` of two equally shaped arrays. -/
def hadamard (a b : Mat) : Mat :=
  List.zipWith (List.zipWith (fun x y => x * y)) a b

/-- Embedding of `np.sum` over a 2-D array. -/
def sumMat (m : Mat) : ℚ := (m.map (fun r => r.sum)).sum

/-- Embedding of `Filters.convolve2d`: read the kernel shape, zero-pad the
image by half the kernel shape, and let every output pixel be the sum of the
elementwise product of the corresponding window of the padded image with the
kernel (no kernel flip). -/
def convolve2d (image kernel : Mat) : Mat :=
  let kh := shapeH kernel
  let kw := shapeW kernel
  let ph := kh / 2
  let pw := kw / 2
  let padded := padConst image ph pw
  (List.range (shapeH image)).map (fun i =>
    (List.range (shapeW image)).map (fun j =>
      sumMat (hadamard (slice2d padded i j kh kw) kernel)))

/-- Mathematical zero extension used by the specification: the input image
extended by `p` zero-valued samples on every side. -/
def paddedSpec (image : Mat) (H W p : ℕ) (x y : ℕ) : ℚ :=
  if p ≤ x ∧ x < H + p ∧ p ≤ y ∧ y < W + p then at2 image (x - p) (y - p) else 0

/-- Mathematical correlation formula of the specification: the sum over the
kernel footprint of `padded[i+di, j+dj] * kernel[di, dj]`, the kernel taken in
its stored orientation. -/
def correlationSpec (image kernel : Mat) (H W k i j : ℕ) : ℚ :=
  ((List.range k).map (fun di =>
    ((List.range k).map (fun dj =>
      paddedSpec image H W (k / 2) (i + di) (j + dj) * at2 kernel di dj)).sum)).sum

/-! Basic `getD` facts used throughout. -/

theorem getD_replicate_split {α : Type} (n : ℕ) (a d : α) (i : ℕ) :
    (List.replicate n a).getD i d = if i < n then a else d := by
  induction n generalizing i with
  | zero => simp [List.replicate]
  | succ m ih =>
    cases i with
    | zero => simp [List.replicate]
    | succ t => simpa [List.replicate, Nat.succ_lt_succ_iff] using ih t

theorem getD_append_split {α : Type} (l₁ l₂ : List α) (i : ℕ) (d : α) :
    (l₁ ++ l₂).getD i d =
      if i < l₁.length then l₁.getD i d else l₂.getD (i - l₁.length) d := by
  induction l₁ generalizing i with
  | nil => simp
  | cons x xs ih =>
    cases i with
    | zero => simp
    | succ t => simpa [Nat.succ_lt_succ_iff] using ih t

theorem getD_map_lt {α β : Type} (f : α → β) (l : List α) (i : ℕ) (d : α) (d' : β)
    (h : i < l.length) :
    (l.map f).getD i d' = f (l.getD i d) := by
  induction l generalizing i with
  | nil => simp at h
  | cons x xs ih =>
    cases i with
    | zero => simp
    | succ t => simpa using ih t (Nat.succ_lt_succ_iff.mp h)

theorem getD_range_map {β : Type} (f : ℕ → β) (n i : ℕ) (d : β) (h : i < n) :
    ((List.range n).map f).getD i d = f i := by
  rw [getD_map_lt f _ i 0 d (by simpa using h)]
  congr 1
  rw [List.getD_eq_getElem _ _ (by simpa using h)]
  exact List.getElem_range i _

theorem getD_take_lt {α : Type} (l : List α) (n i : ℕ) (d : α) (h : i < n) :
    (l.take n).getD i d = l.getD i d := by
  induction l generalizing n i with
  | nil => simp
  | cons x xs ih =>
    cases n with
    | zero => omega
    | succ m =>
      cases i with
      | zero => simp
      | succ t => simpa using ih m t (by omega)

theorem getD_drop_add {α : Type} (l : List α) (n i : ℕ) (d : α) :
    (l.drop n).getD i d = l.getD (n + i) d := by
  induction l generalizing n with
  | nil => simp
  | cons x xs ih =>
    cases n with
    | zero => simp
    | succ m => simp [Nat.succ_add, ih m]

theorem getD_mem_of_lt {α : Type} (l : List α) (i : ℕ) (d : α) (h : i < l.length) :
    l.getD i d ∈ l := by
  rw [List.getD_eq_getElem _ _ h]
  exact List.getElem_mem h

/-! Sums of zipped lists rewritten as sums over an index range. -/

theorem sum_zipWith_eq_range {α β : Type} (f : α → β → ℚ) (da : α) (db : β) :
    ∀ (n : ℕ) (a : List α) (b : List β), a.length = n → b.length = n →
      (List.zipWith f a b).sum
        = ((List.range n).map (fun t => f (a.getD t da) (b.getD t db))).sum := by
  intro n
  induction n with
  | zero =>
    intro a b ha hb
    rw [List.length_eq_zero.mp ha, List.length_eq_zero.mp hb]
    simp
  | succ m ih =>
    intro a b ha hb
    cases a with
    | nil => simp at ha
    | cons x xs =>
      cases b with
      | nil => simp at hb
      | cons y ys =>
        rw [List.zipWith_cons_cons, List.sum_cons, List.range_succ_eq_map,
          List.map_cons, List.sum_cons, List.map_map]
        have h1 : xs.length = m := by simpa using ha
        have h2 : ys.length = m := by simpa using hb
        rw [ih xs ys h1 h2]
        refine congrArg (fun z => f x y + z) ?_
        exact (congrArg List.sum (List.map_congr_left
          (fun t _ => by simp [Function.comp, List.getD]))).symm

theorem sumMat_hadamard (A B : Mat) (h w : ℕ)
    (hA : A.length = h) (hArows : ∀ r ∈ A, r.length = w)
    (hB : B.length = h) (hBrows : ∀ r ∈ B, r.length = w) :
    sumMat (hadamard A B)
      = ((List.range h).map (fun di =>
          ((List.range w).map (fun dj => at2 A di dj * at2 B di dj)).sum)).sum := by
  unfold sumMat hadamard
  rw [List.map_zipWith]
  rw [sum_zipWith_eq_range (fun r s => (List.zipWith (fun x y => x * y) r s).sum)
    ([] : List ℚ) ([] : List ℚ) h A B hA hB]
  refine congrArg List.sum (List.map_congr_left ?_)
  intro di hdi
  have hdi' : di < h := List.mem_range.mp hdi
  have hra : (A.getD di []).length = w :=
    hArows _ (getD_mem_of_lt A di [] (by omega))
  have hrb : (B.getD di []).length = w :=
    hBrows _ (getD_mem_of_lt B di [] (by omega))
  rw [sum_zipWith_eq_range (fun x y => x * y) (0 : ℚ) (0 : ℚ) w _ _ hra hrb]
  rfl

/-! Shape and entry facts about the zero padding. -/

theorem length_padConst (image : Mat) (ph pw : ℕ) :
    (padConst image ph pw).length = ph + image.length + ph := by
  simp [padConst]
  omega

theorem rows_padConst (image : Mat) (ph pw W : ℕ)
    (hsw : shapeW image = W) (hW : ∀ r ∈ image, r.length = W) :
    ∀ r ∈ padConst image ph pw, r.length = W + 2 * pw := by
  intro r hr
  unfold padConst at hr
  simp only [List.mem_append, List.mem_replicate, List.mem_map] at hr
  rcases hr with (⟨_, rfl⟩ | ⟨s, hs, rfl⟩) | ⟨_, rfl⟩
  · simp [hsw]
  · simp [hW s hs]; omega
  · simp [hsw]

theorem at2_padConst (image : Mat) (H W ph pw : ℕ)
    (hH : image.length = H) (hW : ∀ r ∈ image, r.length = W) (x y : ℕ) :
    at2 (padConst image ph pw) x y =
      if ph ≤ x ∧ x < H + ph ∧ pw ≤ y ∧ y < W + pw
      then at2 image (x - ph) (y - pw) else 0 := by
  have hzrow : ∀ z, (List.replicate (shapeW image + 2 * pw) (0 : ℚ)).getD z 0 = 0 := by
    intro z; rw [getD_replicate_split]; split <;> rfl
  unfold padConst at2
  rw [getD_append_split]
  simp only [List.length_append, List.length_replicate, List.length_map, hH]
  by_cases hx0 : x < ph + H
  · rw [if_pos hx0, getD_append_split]
    simp only [List.length_replicate]
    by_cases hx1 : x < ph
    · rw [if_pos hx1, getD_replicate_split, if_pos hx1, hzrow, if_neg (by omega)]
    · rw [if_neg hx1]
      rw [getD_map_lt _ image _ [] _ (by omega)]
      have hrlen : (image.getD (x - ph) []).length = W :=
        hW _ (getD_mem_of_lt image (x - ph) [] (by omega))
      rw [getD_append_split]
      simp only [List.length_append, List.length_replicate, hrlen]
      by_cases hy0 : y < pw + W
      · rw [if_pos (by omega), getD_append_split]
        simp only [List.length_replicate]
        by_cases hy1 : y < pw
        · rw [if_pos hy1, getD_replicate_split, if_pos hy1, if_neg (by omega)]
        · rw [if_neg hy1, if_pos (by omega)]
      · rw [if_neg (by omega), getD_replicate_split, ite_self, if_neg (by omega)]
  · rw [if_neg hx0, getD_replicate_split]
    by_cases hx2 : x - (ph + H) < ph
    · rw [if_pos hx2, hzrow, if_neg (by omega)]
    · rw [if_neg hx2, if_neg (by omega)]
      simp

/-! Shape and entry facts about slices. -/

theorem length_slice2d (m : Mat) (i j h w : ℕ) :
    (slice2d m i j h w).length = min h (m.length - i) := by
  simp [slice2d]

theorem rows_slice2d (m : Mat) (i j h w : ℕ)
    (hrows : ∀ r ∈ m, j + w ≤ r.length) :
    ∀ r ∈ slice2d m i j h w, r.length = w := by
  intro r hr
  unfold slice2d at hr
  simp only [List.mem_map] at hr
  obtain ⟨s, hs, rfl⟩ := hr
  have hsm : s ∈ m := List.mem_of_mem_drop (List.mem_of_mem_take hs)
  have hsl := hrows s hsm
  simp only [List.length_take, List.length_drop]
  omega

theorem at2_slice2d (m : Mat) (i j h w di dj : ℕ) (hdi : di < h) (hdj : dj < w) :
    at2 (slice2d m i j h w) di dj = at2 m (i + di) (j + dj) := by
  unfold slice2d at2
  by_cases hin : di < ((m.drop i).take h).length
  · rw [getD_map_lt _ _ _ [] _ hin]
    rw [getD_take_lt _ _ _ _ hdj, getD_drop_add]
    rw [getD_take_lt _ _ _ _ hdi, getD_drop_add]
  · have hlen : ((m.drop i).take h).length ≤ di := Nat.le_of_not_lt hin
    have hml : m.length ≤ i + di := by
      simp only [List.length_take, List.length_drop] at hlen
      omega
    rw [List.getD_eq_default (((m.drop i).take h).map (fun r => (r.drop j).take w)) []
      (by simpa using hlen)]
    rw [List.getD_eq_default m [] (by omega)]
    simp

/-! Correctness of the convolution engine against the specification formula. -/

theorem convolve2d_entry_spec (image kernel : Mat) (H W k i j : ℕ)
    (hH : image.length = H) (hW : ∀ r ∈ image, r.length = W)
    (hkh : kernel.length = k) (hkw : ∀ r ∈ kernel, r.length = k)
    (hk : 0 < k) (hi : i < H) (hj : j < W) :
    at2 (convolve2d image kernel) i j = correlationSpec image kernel H W k i j := by
  have hsw : shapeW image = W := by
    cases image with
    | nil => simp at hH; omega
    | cons r rest => exact hW r (by simp)
  have hskw : shapeW kernel = k := by
    cases kernel with
    | nil => simp at hkh; omega
    | cons r rest => exact hkw r (by simp)
  have hconv : convolve2d image kernel
      = (List.range H).map (fun a =>
          (List.range W).map (fun b =>
            sumMat (hadamard
              (slice2d (padConst image (k / 2) (k / 2)) a b k k) kernel))) := by
    simp only [convolve2d, shapeH]
    rw [hsw, hskw, hkh, hH]
  rw [hconv]
  unfold at2
  rw [getD_range_map _ H i [] hi, getD_range_map _ W j 0 hj]
  have hpadrows : ∀ r ∈ padConst image (k / 2) (k / 2), r.length = W + 2 * (k / 2) :=
    rows_padConst image (k / 2) (k / 2) W hsw hW
  have hwinlen : (slice2d (padConst image (k / 2) (k / 2)) i j k k).length = k := by
    rw [length_slice2d, length_padConst, hH]
    omega
  have hwinrows : ∀ r ∈ slice2d (padConst image (k / 2) (k / 2)) i j k k,
      r.length = k := by
    refine rows_slice2d _ i j k k ?_
    intro r hr
    rw [hpadrows r hr]
    omega
  have hsum := sumMat_hadamard
    (slice2d (padConst image (k / 2) (k / 2)) i j k k) kernel k k
    hwinlen hwinrows hkh hkw
  rw [hsum]
  unfold correlationSpec
  refine congrArg List.sum (List.map_congr_left ?_)
  intro di hdi
  refine congrArg List.sum (List.map_congr_left ?_)
  intro dj hdj
  have hdi' : di < k := List.mem_range.mp hdi
  have hdj' : dj < k := List.mem_range.mp hdj
  rw [at2_slice2d _ i j k k di dj hdi' hdj',
    at2_padConst image H W (k / 2) (k / 2) hH hW]
  rfl

theorem convolve2d_shape (image kernel : Mat) (H W : ℕ)
    (hH : image.length = H) (hsw : shapeW image = W) :
    (convolve2d image kernel).map List.length = List.replicate H W := by
  simp only [convolve2d, shapeH]
  rw [hsw, hH, List.map_map]
  refine List.eq_replicate_iff.mpr ⟨by simp, ?_⟩
  intro b hb
  rcases List.mem_map.mp hb with ⟨a, _, rfl⟩
  simp

/-- C1: for every H×W image and k×k kernel, `convolve2d` returns an H×W float
buffer whose entry at (i, j) is the sum over the kernel footprint of
`padded[i+di, j+dj] * kernel[di, dj]`, where `padded` extends the input by
⌊k/2⌋ zero samples on every side and the kernel is applied unflipped. -/
theorem C1_convolve2d_correct (image kernel : Mat) (H W k i j : ℕ)
    (hH : image.length = H) (hW : ∀ r ∈ image, r.length = W)
    (hkh : kernel.length = k) (hkw : ∀ r ∈ kernel, r.length = k)
    (hk : 0 < k) (hi : i < H) (hj : j < W) :
    at2 (convolve2d image kernel) i j = correlationSpec image kernel H W k i j
      ∧ (convolve2d image kernel).map List.length = List.replicate H W := by
  have hsw : shapeW image = W := by
    cases image with
    | nil => simp at hH; omega
    | cons r rest => exact hW r (by simp)
  exact ⟨convolve2d_entry_spec image kernel H W k i j hH hW hkh hkw hk hi hj,
    convolve2d_shape image kernel H W hH hsw⟩

/-- Witness for C1 at a concrete 2×2 image and 2×2 kernel. -/
theorem C1_witness :
    at2 (convolve2d [[(1 : ℚ), 2], [3, 4]] [[1, 0], [0, 2]]) 0 0
        = correlationSpec [[(1 : ℚ), 2], [3, 4]] [[1, 0], [0, 2]] 2 2 2 0 0
      ∧ (convolve2d [[(1 : ℚ), 2], [3, 4]] [[1, 0], [0, 2]]).map List.length
        = List.replicate 2 2 :=
  C1_convolve2d_correct [[(1 : ℚ), 2], [3, 4]] [[1, 0], [0, 2]] 2 2 2 0 0
    rfl (by decide) rfl (by decide) (by decide) (by decide) (by decide)

/-! The mean (box) filter. -/

/-- Uniform box kernel of `Filters.mean_filter`:
`np.ones((size, size), dtype=np.float32) / (size * size)`. -/
def boxKernel (size : ℕ) : Mat :=
  List.replicate size (List.replicate size (1 / ((size : ℚ) * size)))

/-- Embedding of `Filters.mean_filter`: correlate the image with the uniform
box kernel and return the float buffer produced by `convolve2d` unchanged. -/
def mean_filter (image : Mat) (size : ℕ) : Mat :=
  convolve2d image (boxKernel size)

theorem at2_boxKernel (s di dj : ℕ) (h1 : di < s) (h2 : dj < s) :
    at2 (boxKernel s) di dj = 1 / ((s : ℚ) * s) := by
  unfold boxKernel at2
  rw [getD_replicate_split, if_pos h1, getD_replicate_split, if_pos h2]

theorem paddedSpec_bounds (image : Mat) (H W p x y : ℕ)
    (hH : image.length = H) (hW : ∀ r ∈ image, r.length = W)
    (hrange : ∀ r ∈ image, ∀ v ∈ r, 0 ≤ v ∧ v ≤ 255) :
    0 ≤ paddedSpec image H W p x y ∧ paddedSpec image H W p x y ≤ 255 := by
  unfold paddedSpec
  by_cases hcond : p ≤ x ∧ x < H + p ∧ p ≤ y ∧ y < W + p
  · rw [if_pos hcond]
    unfold at2
    have hrow := getD_mem_of_lt image (x - p) [] (by omega)
    have hrl : (image.getD (x - p) []).length = W := hW _ hrow
    have hv := getD_mem_of_lt (image.getD (x - p) []) (y - p) 0 (by omega)
    exact hrange _ hrow _ hv
  · rw [if_neg hcond]
    norm_num

theorem sum_le_length_smul (l : List ℚ) (c : ℚ) (h : ∀ x ∈ l, x ≤ c) :
    l.sum ≤ (l.length : ℚ) * c := by
  induction l with
  | nil => simp
  | cons x xs ih =>
    simp only [List.sum_cons, List.length_cons]
    have hx := h x (by simp)
    have hxs := ih (fun y hy => h y (by simp [hy]))
    push_cast
    nlinarith

/-- Counterexample to C3 as stated: on the 1×1 image `[[1]]` with size 3 the
pixel produced by `mean_filter` is 1/9, which is not an 8-bit unsigned sample
(the result is the raw float correlation; no narrowing is performed). -/
theorem C3_counterexample :
    ¬ ∃ n : ℕ, at2 (mean_filter [[(1 : ℚ)]] 3) 0 0 = (n : ℚ) := by
  have hval : at2 (mean_filter [[(1 : ℚ)]] 3) 0 0 = 1 / 9 := by
    simp [mean_filter, boxKernel, convolve2d, at2, shapeW, shapeH, padConst, slice2d,
      hadamard, sumMat, List.range_succ]
    norm_num
  rw [hval]
  rintro ⟨n, hn⟩
  have h1 : (9 : ℚ) * (n : ℚ) = 1 := by rw [← hn]; norm_num
  have h2 : (9 * n : ℕ) = 1 := by exact_mod_cast h1
  omega

/-- C3 (amended): `mean_filter` correlates the image with the uniform
1/(size²) box kernel and returns the float correlation result with no clamping
and no narrowing to 8-bit; for 8-bit inputs every output value already lies
within [0, 255]. -/
theorem C3_mean_filter_amended (image : Mat) (H W s i j : ℕ)
    (hH : image.length = H) (hW : ∀ r ∈ image, r.length = W)
    (hrange : ∀ r ∈ image, ∀ v ∈ r, 0 ≤ v ∧ v ≤ 255)
    (hs : 0 < s) (hi : i < H) (hj : j < W) :
    at2 (mean_filter image s) i j = correlationSpec image (boxKernel s) H W s i j
      ∧ 0 ≤ at2 (mean_filter image s) i j
      ∧ at2 (mean_filter image s) i j ≤ 255 := by
  have hkrows : ∀ r ∈ boxKernel s, r.length = s := by
    intro r hr
    rw [List.eq_of_mem_replicate hr]
    simp
  have hEq : at2 (mean_filter image s) i j
      = correlationSpec image (boxKernel s) H W s i j := by
    unfold mean_filter
    exact convolve2d_entry_spec image (boxKernel s) H W s i j hH hW
      (by simp [boxKernel]) hkrows hs hi hj
  have hsQ : (0 : ℚ) < (s : ℚ) * s := by
    have h0 : (0 : ℚ) < (s : ℚ) := by exact_mod_cast hs
    nlinarith
  refine ⟨hEq, ?_, ?_⟩
  · rw [hEq]
    unfold correlationSpec
    apply List.sum_nonneg
    intro a ha
    rcases List.mem_map.mp ha with ⟨di, hdi, rfl⟩
    apply List.sum_nonneg
    intro b hb
    rcases List.mem_map.mp hb with ⟨dj, hdj, rfl⟩
    have hpb := (paddedSpec_bounds image H W (s / 2) (i + di) (j + dj) hH hW hrange).1
    have hkv : at2 (boxKernel s) di dj = 1 / ((s : ℚ) * s) :=
      at2_boxKernel s di dj (List.mem_range.mp hdi) (List.mem_range.mp hdj)
    rw [hkv]
    positivity
  · rw [hEq]
    unfold correlationSpec
    have hinner : ∀ di ∈ List.range s,
        ((List.range s).map (fun dj =>
          paddedSpec image H W (s / 2) (i + di) (j + dj) * at2 (boxKernel s) di dj)).sum
          ≤ (s : ℚ) * (255 * (1 / ((s : ℚ) * s))) := by
      intro di hdi
      have hb : ∀ x ∈ (List.range s).map (fun dj =>
          paddedSpec image H W (s / 2) (i + di) (j + dj) * at2 (boxKernel s) di dj),
          x ≤ 255 * (1 / ((s : ℚ) * s)) := by
        intro x hx
        rcases List.mem_map.mp hx with ⟨dj, hdj, rfl⟩
        have hkv : at2 (boxKernel s) di dj = 1 / ((s : ℚ) * s) :=
          at2_boxKernel s di dj (List.mem_range.mp hdi) (List.mem_range.mp hdj)
        rw [hkv]
        have hpb := (paddedSpec_bounds image H W (s / 2) (i + di) (j + dj) hH hW hrange).2
        have hrec : (0 : ℚ) ≤ 1 / ((s : ℚ) * s) := by positivity
        exact mul_le_mul_of_nonneg_right hpb hrec
      have h2 := sum_le_length_smul _ _ hb
      simpa using h2
    have houter : ∀ x ∈ (List.range s).map (fun di =>
        ((List.range s).map (fun dj =>
          paddedSpec image H W (s / 2) (i + di) (j + dj)
            * at2 (boxKernel s) di dj)).sum),
        x ≤ (s : ℚ) * (255 * (1 / ((s : ℚ) * s))) := by
      intro x hx
      rcases List.mem_map.mp hx with ⟨di, hdi, rfl⟩
      exact hinner di hdi
    have h3 := sum_le_length_smul _ _ houter
    simp only [List.length_map, List.length_range] at h3
    have h4 : (s : ℚ) * ((s : ℚ) * (255 * (1 / ((s : ℚ) * s)))) = 255 := by
      field_simp
      ring
    rw [h4] at h3
    exact h3

/-- Witness for the amended C3 at a concrete 2×2 image and size 3. -/
theorem C3_witness :
    at2 (mean_filter [[(1 : ℚ), 2], [3, 4]] 3)  0 0
        = correlationSpec [[(1 : ℚ), 2], [3, 4]] (boxKernel 3) 2 2 3 0 0
      ∧ 0 ≤ at2 (mean_filter [[(1 : ℚ), 2], [3, 4]] 3) 0 0
      ∧ at2 (mean_filter [[(1 : ℚ), 2], [3, 4]] 3) 0 0 ≤ 255 :=
  C3_mean_filter_amended [[(1 : ℚ), 2], [3, 4]] 2 2 3 0 0
    rfl (by decide) (by decide) (by decide) (by decide) (by decide)

/-! Point-wise arithmetic of ArithmeticalOperations. -/

/-- Wraparound into the signed 16-bit range: NumPy int16 arithmetic reduces
every elementwise result modulo 2^16 into [-32768, 32767]. -/
def int16OfInt (x : ℤ) : ℤ := (x + 32768) % 65536 - 32768

/-- Embedding of the `apply_clip_uint8` decorator: `np.clip(arr, 0, 255)`
followed by `astype(np.uint8)` (exact on the clipped range). -/
def clipUint8 (x : ℤ) : ℕ := (min (max x 0) 255).toNat

/-- Embedding of the `pointwise_operation` decorator: widen the uint8 samples
to int16 (`array.astype(np.int16)`, exact on 0..255), apply the wrapped
elementwise operation in int16 arithmetic, then clip to [0, 255] and narrow to
uint8.  The scalar operand is modelled as an integer, as in the claims under
verification. -/
def pointwise_operation (f : ℤ → ℤ) (image : MatN) : MatN :=
  image.map (fun r => r.map (fun s : ℕ => clipUint8 (int16OfInt (f (s : ℤ)))))

/-- Embedding of `image_add`: `arr + value`. -/
def image_add (image : MatN) (value : ℤ) : MatN :=
  pointwise_operation (fun s => s + value) image

/-- Embedding of `image_subtract`: `arr - value`. -/
def image_subtract (image : MatN) (value : ℤ) : MatN :=
  pointwise_operation (fun s => s - value) image

/-- Embedding of `image_multiply` for an integer factor: `arr * value`. -/
def image_multiply (image : MatN) (value : ℤ) : MatN :=
  pointwise_operation (fun s => s * value) image

/-- Embedding of `image_divide`: `arr // value`, NumPy floor division; integer
division by zero yields 0 elementwise (with a RuntimeWarning), which
`Int.fdiv` mirrors. -/
def image_divide (image : MatN) (value : ℤ) : MatN :=
  pointwise_operation (fun s => Int.fdiv s value) image

/-- All-zero image of the same shape as `m`. -/
def zeroLike (m : MatN) : MatN := m.map (fun r => r.map (fun _ => 0))

/-- Counterexample to C4 as stated: `image_divide([[5]], 0)` does not raise an
error condition; it produces the result buffer `[[0]]`. -/
theorem C4_counterexample : image_divide [[5]] 0 = [[0]] := by decide

/-- C4 (amended): dividing any image by zero raises nothing; NumPy integer
division by zero yields 0 per element, so `image_divide(image, 0)` returns the
all-zero buffer of the input's shape. -/
theorem C4_divide_zero_amended (image : MatN) :
    image_divide image 0 = zeroLike image := by
  unfold image_divide pointwise_operation zeroLike
  refine List.map_congr_left ?_
  intro r _
  refine List.map_congr_left ?_
  intro s _
  simp only [Int.fdiv_zero]
  decide

/-- C7: the int16 intermediate of `pointwise_operation` is not wide enough to
hold every true product: at sample 255 with integer factor 200 the claim
demands the clamped value 255, but the int16 computation wraps 51000 to
-14536 and the output pixel is 0. -/
theorem C7_multiply_overflow :
    image_multiply [[255]] 200 = [[0]] ∧ clipUint8 (255 * 200) = 255 := by decide

theorem int16OfInt_eq_self (x : ℤ) (h1 : -32768 ≤ x) (h2 : x ≤ 32767) :
    int16OfInt x = x := by
  unfold int16OfInt
  rw [Int.emod_eq_of_lt (by omega) (by omega)]
  omega

theorem add_subtract_roundtrip_elem (v : ℕ) (c : ℤ) (hv : v ≤ 255)
    (hlo : 0 ≤ (v : ℤ) + c) (hhi : (v : ℤ) + c ≤ 255) :
    clipUint8 (int16OfInt ((clipUint8 (int16OfInt ((v : ℤ) + c)) : ℤ) - c)) = v := by
  unfold clipUint8 int16OfInt
  omega

/-- C8: applying `image_add` with a constant c and then `image_subtract` with
the same c returns every pixel to its original value whenever v + c lies in
[0, 255], so that no clamping (and no int16 wraparound) occurs at either
step. -/
theorem C8_add_subtract_roundtrip (image : MatN) (c : ℤ)
    (hv : ∀ r ∈ image, ∀ v ∈ r, v ≤ 255)
    (hlo : ∀ r ∈ image, ∀ v ∈ r, 0 ≤ (v : ℤ) + c)
    (hhi : ∀ r ∈ image, ∀ v ∈ r, (v : ℤ) + c ≤ 255) :
    image_subtract (image_add image c) c = image := by
  unfold image_subtract image_add pointwise_operation
  rw [List.map_map]
  have hrows : ∀ r ∈ image,
      (List.map (fun s : ℕ => clipUint8 (int16OfInt ((s : ℤ) - c)))
        ∘ List.map (fun s : ℕ => clipUint8 (int16OfInt ((s : ℤ) + c)))) r = id r := by
    intro r hr
    simp only [Function.comp, List.map_map, id]
    have helem : ∀ v ∈ r,
        ((fun s : ℕ => clipUint8 (int16OfInt ((s : ℤ) - c)))
          ∘ (fun s : ℕ => clipUint8 (int16OfInt ((s : ℤ) + c)))) v = id v := by
      intro v hvr
      simp only [Function.comp, id]
      exact add_subtract_roundtrip_elem v c (hv r hr v hvr) (hlo r hr v hvr)
        (hhi r hr v hvr)
    rw [List.map_congr_left helem, List.map_id]
  rw [List.map_congr_left hrows, List.map_id]

/-- Witness for C8 at a concrete image and constant 5. -/
theorem C8_witness :
    image_subtract (image_add [[0, 100, 250]] 5) 5 = [[0, 100, 250]] :=
  C8_add_subtract_roundtrip [[0, 100, 250]] 5 (by decide) (by decide) (by decide)

/-! The Gaussian kernel grid of Filters.gaussian_filter. -/

/-- Embedding of the integer range `lo:hi` of one `np.mgrid` axis. -/
def mgridRange (lo hi : ℤ) : List ℤ :=
  (List.range (hi - lo).toNat).map (fun t => lo + (t : ℤ))

/-- Embedding of the grid axis `np.mgrid[-size // 2 : size // 2 + 1]` of
`gaussian_filter` (Python floor division, and `-size // 2` parses as
`(-size) // 2`).  The Gaussian weights are sampled over this grid, so the
kernel built by `gaussian_filter` is a square with one sample per grid point
on each axis. -/
def gaussianGrid (size : ℕ) : List ℤ :=
  mgridRange (Int.fdiv (-(size : ℤ)) 2) (Int.fdiv (size : ℤ) 2 + 1)

/-- C2 (code evaluation at the failing input): for the default size 3 the grid
is [-2, -1, 0, 1], so the kernel is 4×4 — one larger than `size` on each axis,
even-sized, and the Gaussian center 0 sits at index 2 of an asymmetric grid
rather than at ⌊size/2⌋ = 1 of a symmetric one. -/
theorem C2_gaussian_kernel_size :
    gaussianGrid 3 = [-2, -1, 0, 1] ∧ (gaussianGrid 3).length = 4
      ∧ (gaussianGrid 3).length ≠ 3 := by decide

/-! Sobel edge detection. -/

/-- Keys of the SOBEL_KERNELS dictionary. -/
inductive SobelDir where
  | d0
  | d45
  | d90
  | d135
deriving DecidableEq

/-- Embedding of the SOBEL_KERNELS dictionary. -/
def sobelKernel : SobelDir → Mat
  | .d0 => [[-1, 0, 1], [-2, 0, 2], [-1, 0, 1]]
  | .d45 => [[0, 1, 2], [-1, 0, 1], [-2, -1, 0]]
  | .d90 => [[1, 2, 1], [0, 0, 0], [-1, -2, -1]]
  | .d135 => [[2, 1, 0], [1, 0, -1], [0, -1, -2]]

/-- Result of `sobel` after `astype(np.uint8)`: either a 0-dimensional NumPy
scalar (produced when Python's `sum` received no arrays) or an H×W array. -/
inductive NpOut where
  | scalar (n : ℕ)
  | image (m : MatN)
deriving DecidableEq

/-- Floor of a rational, `q.num.fdiv q.den`; it models the truncating uint8
cast applied to the nonnegative float data that occurs in the filters. -/
def floorQ (q : ℚ) : ℤ := Int.fdiv q.num (q.den : ℤ)

theorem floorQ_eq_floor (q : ℚ) : floorQ q = ⌊q⌋ := by
  unfold floorQ
  rw [Rat.floor_def, Int.fdiv_eq_ediv _ (by positivity)]

/-- Final step of `sobel` per entry: `np.clip(np.sqrt(s), 0, 255)` followed by
the uint8 cast.  For `s ≥ 0` the cast truncates, `⌊√s⌋ = Nat.sqrt ⌊s⌋`, and
clipping before the cast coincides with capping the truncated root at 255. -/
def uint8SqrtClip (s : ℚ) : ℕ := min (Nat.sqrt (floorQ s).toNat) 255

/-- Elementwise square `r * r` of a response map. -/
def matSquare (m : Mat) : Mat := m.map (fun r => r.map (fun x => x * x))

/-- Elementwise sum of two response maps. -/
def matAdd (a b : Mat) : Mat := List.zipWith (List.zipWith (fun x y => x + y)) a b

/-- Embedding of `Filters.sobel`: convolve the image with the kernel of every
requested direction, square and add the responses with Python's `sum` (whose
value over an empty sequence is the scalar 0), then take the square root, clip
to [0, 255] and cast to uint8. -/
def sobel (image : Mat) (angles : List SobelDir) : NpOut :=
  match (angles.map (fun a => convolve2d image (sobelKernel a))).map matSquare with
  | [] => NpOut.scalar (uint8SqrtClip 0)
  | m :: ms => NpOut.image ((ms.foldl matAdd m).map (fun r => r.map uint8SqrtClip))

/-- Counterexample to C5 as stated: `sobel` on a 1×1 image with an empty
direction set does not fail with an error condition; it returns the
0-dimensional uint8 scalar 0. -/
theorem C5_counterexample : sobel [[(7 : ℚ)]] [] = NpOut.scalar 0 := by decide

/-- C5 (amended): for every image, `sobel` with an empty set of directions
does not fail: the Python sum over the empty response list is the integer
scalar 0, so the call returns the 0-dimensional uint8 scalar 0 rather than
raising an error or producing an H×W result. -/
theorem C5_sobel_empty_amended (image : Mat) : sobel image [] = NpOut.scalar 0 := by
  show NpOut.scalar (uint8SqrtClip 0) = NpOut.scalar 0
  decide

/-! Grayscale conversion. -/

/-- RGB pixel of three uint8 channel samples. -/
abbrev RGB := ℕ × ℕ × ℕ

/-- Wraparound addition of `numpy.uint8` samples. -/
def addU8 (a b : ℕ) : ℕ := (a + b) % 256

/-- Truncating uint8 cast of a clipped float: `np.clip(x, 0, 255)` then
`astype(np.uint8)` (the floor of the clipped nonnegative value). -/
def clipCastU8 (q : ℚ) : ℕ := (floorQ (min (max q 0) 255)).toNat

/-- Methods of the `gray_scale` dictionary; an unrecognized name raises
`ValueError` in the source, which this closed enumeration rules out. -/
inductive GrayMethod where
  | mean
  | luminosity
  | red
  | green
  | blue

/-- Per-pixel scalar of `gray_scale`.  The channel slices R, G, B are uint8
arrays, so `R + G + B` in the mean method wraps modulo 256 before the float
division by 3; the luminosity float weights are modelled by their decimal
values. -/
def grayValue (method : GrayMethod) (p : RGB) : ℚ :=
  match method with
  | .mean => ((addU8 (addU8 p.1 p.2.1) p.2.2 : ℕ) : ℚ) / 3
  | .luminosity =>
      (299 / 1000) * (p.1 : ℚ) + (587 / 1000) * (p.2.1 : ℚ) + (114 / 1000) * (p.2.2 : ℚ)
  | .red => (p.1 : ℚ)
  | .green => (p.2.1 : ℚ)
  | .blue => (p.2.2 : ℚ)

/-- Embedding of `gray_scale` on an (H, W, 3) uint8 image: compute the scalar
of the selected method per pixel, replicate it into all three channels
(`np.stack([gray, gray, gray], axis=-1)`), then clip to [0, 255] and cast to
uint8 via the `apply_clip_uint8` decorator.  The (H, W, 3) shape check of the
source is enforced by the `RGB` pixel type. -/
def gray_scale (image : List (List RGB)) (method : GrayMethod) : List (List RGB) :=
  image.map (fun row => row.map (fun p =>
    ((clipCastU8 (grayValue method p) : ℕ), (clipCastU8 (grayValue method p) : ℕ),
      (clipCastU8 (grayValue method p) : ℕ))))

/-- C6 (code evaluation at the failing input): on the single white pixel
(255, 255, 255) the mean method computes ((255+255+255) mod 256) / 3 = 253/3
and outputs 84 in every channel, while the true mathematical mean
(255+255+255)/3 is 255: the uint8 channel sum wraps around. -/
theorem C6_gray_mean_wraparound :
    gray_scale [[(255, 255, 255)]] GrayMethod.mean = [[(84, 84, 84)]]
      ∧ (255 + 255 + 255) / 3 = (255 : ℕ) := by
  constructor
  · show [[((clipCastU8 (grayValue GrayMethod.mean (255, 255, 255)) : ℕ),
      (clipCastU8 (grayValue GrayMethod.mean (255, 255, 255)) : ℕ),
      (clipCastU8 (grayValue GrayMethod.mean (255, 255, 255)) : ℕ))]]
        = [[(84, 84, 84)]]
    have hval : clipCastU8 (grayValue GrayMethod.mean (255, 255, 255)) = 84 := by
      have hq : grayValue GrayMethod.mean (255, 255, 255) = 253 / 3 := by
        simp [grayValue, addU8]
      rw [hq]
      have hmax : max ((253 : ℚ) / 3) 0 = 253 / 3 := by norm_num
      have hmin : min ((253 : ℚ) / 3) 255 = 253 / 3 := by
        rw [min_eq_left (by norm_num)]
      unfold clipCastU8
      rw [hmax, hmin, floorQ_eq_floor]
      norm_num
      decide
    rw [hval]
  · decide

/-! Median filtering. -/

/-- Insertion of a value into a sorted list of rationals. -/
def insertSorted (x : ℚ) : List ℚ → List ℚ
  | [] => [x]
  | y :: ys => if x ≤ y then x :: y :: ys else y :: insertSorted x ys

/-- Insertion sort of rationals, modelling the sort inside `np.median`. -/
def sortQ : List ℚ → List ℚ
  | [] => []
  | x :: xs => insertSorted x (sortQ xs)

/-- Embedding of `np.median`: sort the flattened data; an odd count takes the
middle element, an even count averages the two middle elements. -/
def npMedian (l : List ℚ) : ℚ :=
  if l.length % 2 = 1 then (sortQ l).getD (l.length / 2) 0
  else ((sortQ l).getD (l.length / 2 - 1) 0 + (sortQ l).getD (l.length / 2) 0) / 2

/-- Writing the float median back into the uint8 output buffer
(`out[i, j] = np.median(window)` with `out = np.zeros_like(image)`): the
assignment truncates, and medians of uint8 data are nonnegative and at most
255, so this is the floor. -/
def medianToUint8 (q : ℚ) : ℕ := (floorQ q).toNat

/-- Conversion of a uint8 window to the float samples fed to `np.median`. -/
def toQMat (m : MatN) : Mat := m.map (fun r => r.map (fun n : ℕ => (n : ℚ)))

/-- Embedding of `Filters.median_filter`: zero-pad by ⌊ksize/2⌋ with the same
border policy as `convolve2d`, and let every output pixel be the median of its
ksize×ksize window of the padded image. -/
def median_filter (image : MatN) (ksize : ℕ) : MatN :=
  let p := ksize / 2
  let padded := padConst (toQMat image) p p
  (List.range (shapeH (toQMat image))).map (fun i =>
    (List.range (shapeW (toQMat image))).map (fun j =>
      medianToUint8 (npMedian ((slice2d padded i j ksize ksize).flatten))))

/-- Constant-valued H×W image. -/
def uniformImage (H W v : ℕ) : MatN := List.replicate H (List.replicate W v)

theorem length_insertSorted (x : ℚ) (l : List ℚ) :
    (insertSorted x l).length = l.length + 1 := by
  induction l with
  | nil => rfl
  | cons y ys ih =>
    unfold insertSorted
    split
    · simp
    · simp [ih]

theorem mem_insertSorted (x z : ℚ) (l : List ℚ) (h : z ∈ insertSorted x l) :
    z = x ∨ z ∈ l := by
  induction l with
  | nil => simpa [insertSorted] using h
  | cons y ys ih =>
    unfold insertSorted at h
    by_cases hc : x ≤ y
    · rw [if_pos hc] at h
      simpa using h
    · rw [if_neg hc] at h
      rcases List.mem_cons.mp h with h1 | h2
      · simp [h1]
      · rcases ih h2 with h3 | h4
        · exact Or.inl h3
        · simp [h4]

theorem length_sortQ (l : List ℚ) : (sortQ l).length = l.length := by
  induction l with
  | nil => rfl
  | cons x xs ih =>
    unfold sortQ
    rw [length_insertSorted, ih, List.length_cons]

theorem mem_sortQ (l : List ℚ) (z : ℚ) (h : z ∈ sortQ l) : z ∈ l := by
  induction l with
  | nil => simp [sortQ] at h
  | cons x xs ih =>
    unfold sortQ at h
    rcases mem_insertSorted x z (sortQ xs) h with h1 | h2
    · simp [h1]
    · simp [ih h2]

theorem npMedian_const (l : List ℚ) (c : ℚ) (h0 : l.length ≠ 0)
    (hall : ∀ x ∈ l, x = c) : npMedian l = c := by
  have hlen : (sortQ l).length = l.length := length_sortQ l
  have hmem : ∀ x ∈ sortQ l, x = c := fun x hx => hall x (mem_sortQ l x hx)
  unfold npMedian
  by_cases hodd : l.length % 2 = 1
  · rw [if_pos hodd]
    exact hmem _ (getD_mem_of_lt _ _ _ (by omega))
  · rw [if_neg hodd]
    have h1 := hmem _ (getD_mem_of_lt (sortQ l) (l.length / 2 - 1) 0 (by omega))
    have h2 := hmem _ (getD_mem_of_lt (sortQ l) (l.length / 2) 0 (by omega))
    rw [h1, h2]
    ring

theorem medianToUint8_natCast (v : ℕ) : medianToUint8 ((v : ℕ) : ℚ) = v := by
  unfold medianToUint8 floorQ
  rw [Rat.num_natCast, Rat.den_natCast]
  simp

theorem eq_replicate_of_at2 (m : Mat) (a b : ℕ) (c : ℚ)
    (hlen : m.length = a) (hrows : ∀ r ∈ m, r.length = b)
    (hent : ∀ di dj, di < a → dj < b → at2 m di dj = c) :
    m = List.replicate a (List.replicate b c) := by
  refine List.ext_getElem (by simp [hlen]) ?_
  intro n h1 h2
  rw [List.getElem_replicate]
  have hrow : m[n] ∈ m := List.getElem_mem h1
  have hb2 : m[n].length = b := hrows _ hrow
  refine List.ext_getElem (by simp [hb2]) ?_
  intro t t1 t2
  rw [List.getElem_replicate]
  have hv := hent n t (by omega) (by omega)
  unfold at2 at hv
  rw [List.getD_eq_getElem m [] h1] at hv
  rw [List.getD_eq_getElem _ _ t1] at hv
  exact hv

theorem flatten_replicate_replicate {α : Type} (n m : ℕ) (a : α) :
    (List.replicate n (List.replicate m a)).flatten = List.replicate (n * m) a := by
  induction n with
  | zero => simp
  | succ t ih =>
    rw [List.replicate_succ, List.flatten_cons, ih, ← List.replicate_add]
    congr 1
    ring

/-- Counterexample to C9 as stated: the uniform 1×1 image of value 5 filtered
with ksize 3 is not returned unchanged — the window holds eight padding zeros
and a single 5, so the median (and the output pixel) is 0. -/
theorem C9_counterexample :
    median_filter (uniformImage 1 1 5) 3 ≠ uniformImage 1 1 5 := by
  intro h
  have h5 : atN (median_filter (uniformImage 1 1 5) 3) 0 0 = 5 := by
    rw [h]
    decide
  have h0 : atN (median_filter (uniformImage 1 1 5) 3) 0 0 = 0 := by
    have hm : median_filter (uniformImage 1 1 5) 3 = [[medianToUint8 (npMedian
        ((slice2d (padConst (toQMat (uniformImage 1 1 5)) 1 1) 0 0 3 3).flatten))]] := by
      rfl
    rw [hm]
    have hw : (slice2d (padConst (toQMat (uniformImage 1 1 5)) 1 1) 0 0 3 3).flatten
        = [0, 0, 0, 0, (5 : ℚ), 0, 0, 0, 0] := by
      decide
    rw [hw]
    have hmed : npMedian [0, 0, 0, 0, (5 : ℚ), 0, 0, 0, 0] = 0 := by
      unfold npMedian
      norm_num
      decide
    rw [hmed]
    decide
  rw [h5] at h0
  exact absurd h0 (by decide)

/-- C9 (amended): `median_filter` preserves a uniform image at every pixel
whose ksize×ksize window lies entirely inside the image; pixels whose window
overlaps the zero padding are not preserved in general (the 1×1 image [[5]]
with ksize 3 becomes [[0]]), so the filter is idempotent on uniform images
only away from the border (and everywhere on the all-zero image). -/
theorem C9_median_uniform_amended (H W k v i j : ℕ) (hk : 0 < k)
    (hi1 : k / 2 ≤ i) (hi2 : i + k ≤ H + k / 2)
    (hj1 : k / 2 ≤ j) (hj2 : j + k ≤ W + k / 2) :
    atN (median_filter (uniformImage H W v) k) i j = v := by
  have hiH : i < H := by omega
  have hjW : j < W := by omega
  have hQ : toQMat (uniformImage H W v) = List.replicate H (List.replicate W (v : ℚ)) := by
    simp [toQMat, uniformImage]
  have hsh : shapeH (toQMat (uniformImage H W v)) = H := by
    rw [hQ]; simp [shapeH]
  have hsw : shapeW (toQMat (uniformImage H W v)) = W := by
    rw [hQ]
    unfold shapeW
    cases H with
    | zero => omega
    | succ t => simp [List.replicate_succ]
  have hWrows : ∀ r ∈ toQMat (uniformImage H W v), r.length = W := by
    rw [hQ]
    intro r hr
    rw [List.eq_of_mem_replicate hr]
    simp
  have hlenQ : (toQMat (uniformImage H W v)).length = H := by
    rw [hQ]; simp
  have hmf : median_filter (uniformImage H W v) k
      = (List.range H).map (fun a =>
          (List.range W).map (fun b =>
            medianToUint8 (npMedian
              ((slice2d (padConst (toQMat (uniformImage H W v)) (k / 2) (k / 2))
                a b k k).flatten)))) := by
    simp only [median_filter]
    rw [hsh, hsw]
  rw [hmf]
  unfold atN
  rw [getD_range_map _ H i [] hiH, getD_range_map _ W j 0 hjW]
  have hwin : slice2d (padConst (toQMat (uniformImage H W v)) (k / 2) (k / 2)) i j k k
      = List.replicate k (List.replicate k (v : ℚ)) := by
    refine eq_replicate_of_at2 _ k k (v : ℚ) ?_ ?_ ?_
    · rw [length_slice2d, length_padConst, hlenQ]
      omega
    · refine rows_slice2d _ i j k k ?_
      intro r hr
      rw [rows_padConst (toQMat (uniformImage H W v)) (k / 2) (k / 2) W hsw hWrows r hr]
      omega
    · intro di dj hdi hdj
      rw [at2_slice2d _ i j k k di dj hdi hdj]
      rw [at2_padConst (toQMat (uniformImage H W v)) H W (k / 2) (k / 2) hlenQ hWrows]
      rw [if_pos (by omega)]
      rw [hQ]
      unfold at2
      rw [getD_replicate_split, if_pos (by omega), getD_replicate_split,
        if_pos (by omega)]
  rw [hwin, flatten_replicate_replicate]
  rw [npMedian_const _ (v : ℚ) (by simp; omega) (fun x hx => List.eq_of_mem_replicate hx)]
  exact medianToUint8_natCast v

/-- Witness for the amended C9: the center pixel of the uniform 3×3 image of
value 7 under ksize 3 keeps its value. -/
theorem C9_witness : atN (median_filter (uniformImage 3 3 7) 3) 1 1 = 7 :=
  C9_median_uniform_amended 3 3 3 7 1 1 (by decide) (by decide) (by decide)
    (by decide) (by decide)

end ImgLab
